import Mathlib

/-!
Verification development for the spatial-autocorrelation workflow of the
repository (notebook `mpidr_workshop`).  The notebook delegates every
computational step — Queen contiguity weights, row-standardization
(`w.transform = 'r'`), global Moran's I (`Moran`), local Moran's I
(`Moran_Local`) and their permutation p-values (`p_sim`) — to external
statistical libraries whose code is not part of the repository.  Following
the specification, those routines are modelled here as self-contained
numerical functions over exact rationals, and the spec's stated properties
are proved about the models.
-/

open Finset

/-- An adjacency graph on `n` features: each feature index is mapped to its
set of neighbor indices.  An island (empty neighbor set) is explicitly
representable. -/
structure AdjacencyGraph (n : ℕ) where
  neighbors : Fin n → Finset (Fin n)

/-- The islands of an adjacency graph: the features whose neighbor set is
empty. -/
def AdjacencyGraph.islands {n : ℕ} (g : AdjacencyGraph n) : Finset (Fin n) :=
  Finset.univ.filter (fun i => g.neighbors i = ∅)

/-- Spatial weights: an adjacency graph together with a per-edge weight. -/
structure SpatialWeights (n : ℕ) where
  graph : AdjacencyGraph n
  weight : Fin n → Fin n → ℚ

/-- Modelled from the spec: row-standardization (`w.transform = 'r'` in the
notebook, implemented by the external weights library).  Each feature's
outgoing weights are rescaled to sum to 1: every neighbor of `i` receives
weight `1 / (number of neighbors of i)`, non-neighbors receive 0.  A
zero-neighbor feature keeps all-zero weights. -/
def rowStandardize {n : ℕ} (g : AdjacencyGraph n) : SpatialWeights n :=
  ⟨g, fun i j => if j ∈ g.neighbors i then 1 / (g.neighbors i).card else 0⟩

/-- The sum of feature `i`'s outgoing weights. -/
def rowSum {n : ℕ} (wts : SpatialWeights n) (i : Fin n) : ℚ :=
  ∑ j, wts.weight i j

/-- The sum of all weights (`S0` in the usual Moran's I formulation). -/
def totalWeight {n : ℕ} (wts : SpatialWeights n) : ℚ :=
  ∑ i, rowSum wts i

/-- The mean of an attribute vector. -/
def mean {n : ℕ} (x : Fin n → ℚ) : ℚ := (∑ i, x i) / n

/-- The deviation of feature `i`'s attribute value from the mean. -/
def dev {n : ℕ} (x : Fin n → ℚ) (i : Fin n) : ℚ := x i - mean x

/-- The weighted combination of the neighbors' deviations of feature `i`
(the spatial lag of the deviations).  Under row-standardized weights this
is the neighbors' average deviation. -/
def lagDev {n : ℕ} (wts : SpatialWeights n) (x : Fin n → ℚ) (i : Fin n) : ℚ :=
  ∑ j, wts.weight i j * dev x j

/-- The population variance of an attribute vector. -/
def popVariance {n : ℕ} (x : Fin n → ℚ) : ℚ :=
  (∑ i, (dev x i) ^ 2) / n

/-- Modelled from the spec: the global Moran's I statistic (the `Moran`
routine of the external library, exact-rational model), in the standard
cross-product form `I = (n / S0) * Σᵢ zᵢ·(Σⱼ wᵢⱼ zⱼ) / Σᵢ zᵢ²` where
`zᵢ` is the deviation from the mean. -/
def moranI {n : ℕ} (x : Fin n → ℚ) (wts : SpatialWeights n) : ℚ :=
  ((n : ℚ) / totalWeight wts) *
    ((∑ i, dev x i * lagDev wts x i) / (∑ i, (dev x i) ^ 2))

/-- The spec's numeric contract, written from its words: the normalized
weighted covariance of each feature's value with its neighbors' average
value — `(1/n) Σᵢ zᵢ·(neighbors' average deviation of i)` — divided by the
population variance of the attribute vector. -/
def moranSpecForm {n : ℕ} (x : Fin n → ℚ) (wts : SpatialWeights n) : ℚ :=
  ((∑ i, dev x i * lagDev wts x i) / n) / popVariance x

/-- Modelled from the spec: the failure semantics of the global statistic.
Any feature with an empty neighbor set must not silently propagate NaN or a
division by zero into the global statistic; the engine fails fast with a
diagnostic naming the offending indices (the islands), and otherwise
returns the statistic on the row-standardized weights. -/
def moranEngine {n : ℕ} (x : Fin n → ℚ) (g : AdjacencyGraph n) :
    Except (List ℕ) ℚ :=
  if g.islands = ∅ then Except.ok (moranI x (rowStandardize g))
  else Except.error ((g.islands.sort (· ≤ ·)).map Fin.val)

/-- Modelled from the spec: Queen contiguity (`Queen.from_dataframe` in the
notebook, implemented by the external weights library).  Each geometry is
represented by its finite set of vertices; two distinct features are
neighbors exactly when their geometries share a boundary point or vertex. -/
def queenNeighbors {n : ℕ} (polys : Fin n → Finset (ℚ × ℚ)) (i : Fin n) :
    Finset (Fin n) :=
  Finset.univ.filter (fun j => j ≠ i ∧ (polys i ∩ polys j).Nonempty)

/-- The adjacency graph built under the Queen contiguity rule. -/
def queenGraph {n : ℕ} (polys : Fin n → Finset (ℚ × ℚ)) : AdjacencyGraph n :=
  ⟨queenNeighbors polys⟩

/-- The four categories of local spatial association: both-high ("high values
clustered near other high values"), high-near-low, low-near-high, both-low. -/
inductive Quadrant
  | bothHigh
  | highNearLow
  | lowNearHigh
  | bothLow
deriving DecidableEq, Repr

/-- The category determined by the sign of a feature's deviation from the
mean and the sign of its neighbors' average deviation. -/
def quadrantOf (z lag : ℚ) : Quadrant :=
  if 0 < z then (if 0 < lag then Quadrant.bothHigh else Quadrant.highNearLow)
  else (if 0 < lag then Quadrant.lowNearHigh else Quadrant.bothLow)

/-- The number of simulated values at least as extreme as the observed one. -/
def countGE (obs : ℚ) : List ℚ → ℕ
  | [] => 0
  | v :: vs => (if obs ≤ v then 1 else 0) + countGE obs vs

/-- A permutation p-value: the observed statistic compared against the
distribution of simulated values, `(#{sims ≥ observed} + 1) / (#sims + 1)`. -/
def pSimOf (obs : ℚ) (sims : List ℚ) : ℚ :=
  ((countGE obs sims : ℚ) + 1) / (sims.length + 1)

/-- The statistic recomputed after one permutation trial: the
attribute-to-location assignment is randomized by `σ` and the global
statistic recomputed on the reassigned attribute vector. -/
def permutedStat {n : ℕ} (x : Fin n → ℚ) (wts : SpatialWeights n)
    (σ : Fin n → Fin n) : ℚ :=
  moranI (fun i => x (σ i)) wts

/-- Modelled from the spec: the simulation loop behind the global `p_sim`
value.  Walking through the permutation trials, it counts how many
recomputed statistics reach the observed value. -/
def moranSimCount {n : ℕ} (x : Fin n → ℚ) (wts : SpatialWeights n) :
    List (Fin n → Fin n) → ℕ
  | [] => 0
  | σ :: rest =>
      (if moranI x wts ≤ permutedStat x wts σ then 1 else 0) +
        moranSimCount x wts rest

/-- Modelled from the spec: the permutation significance estimate of the
global statistic (`p_sim`), computed from the simulation loop. -/
def moranPSim {n : ℕ} (x : Fin n → ℚ) (wts : SpatialWeights n)
    (perms : List (Fin n → Fin n)) : ℚ :=
  ((moranSimCount x wts perms : ℚ) + 1) / (perms.length + 1)

/-- The full output of a global Moran run: the statistic value and its
permutation significance estimate. -/
structure MoranOutput where
  I : ℚ
  pSim : ℚ

/-- One run of the global engine, with the random permutation trials made
explicit as an input. -/
def moranRun {n : ℕ} (x : Fin n → ℚ) (wts : SpatialWeights n)
    (perms : List (Fin n → Fin n)) : MoranOutput :=
  ⟨moranI x wts, moranPSim x wts perms⟩

/-- The local statistic value at feature `i`: its deviation, scaled by the
population variance, times its neighbors' average deviation. -/
def localValue {n : ℕ} (x : Fin n → ℚ) (wts : SpatialWeights n) (i : Fin n) : ℚ :=
  (dev x i / popVariance x) * lagDev wts x i

/-- A per-feature local result: the statistic value, its four-way
classification and its permutation significance estimate. -/
structure LocalResult where
  value : ℚ
  quad : Quadrant
  pSim : ℚ
deriving DecidableEq, Repr

/-- The local statistic at feature `i` recomputed over the permutation
trials, each trial randomizing the attribute-to-location assignment. -/
def localPermutedVals {n : ℕ} (x : Fin n → ℚ) (wts : SpatialWeights n)
    (i : Fin n) (perms : List (Fin n → Fin n)) : List ℚ :=
  perms.map (fun σ => localValue (fun k => x (σ k)) wts i)

/-- Modelled from the spec: the local Moran's I computation at one feature
(the `Moran_Local` routine of the external library, exact-rational model).
A zero-neighbor feature yields an explicit undefined result (`none`); any
other feature gets its statistic value, its sign-based classification and
its permutation significance estimate. -/
def localMoranAt {n : ℕ} (x : Fin n → ℚ) (wts : SpatialWeights n)
    (perms : List (Fin n → Fin n)) (i : Fin n) : Option LocalResult :=
  if wts.graph.neighbors i = ∅ then none
  else
    some
      { value := localValue x wts i
        quad := quadrantOf (dev x i) (lagDev wts x i)
        pSim := pSimOf (localValue x wts i) (localPermutedVals x wts i perms) }

/-- Modelled from the spec: the local Moran's I over all features, one
entry per feature index, on the row-standardized weights of the graph. -/
def moranLocal {n : ℕ} (x : Fin n → ℚ) (g : AdjacencyGraph n)
    (perms : List (Fin n → Fin n)) : List (Option LocalResult) :=
  (List.finRange n).map (localMoranAt x (rowStandardize g) perms)

theorem rowStandardize_rowSum_of_mem {n : ℕ} (g : AdjacencyGraph n) (i : Fin n)
    (h : g.neighbors i ≠ ∅) : rowSum (rowStandardize g) i = 1 := by
  have hcard : ((g.neighbors i).card : ℚ) ≠ 0 := by
    exact_mod_cast Finset.card_ne_zero.mpr (Finset.nonempty_iff_ne_empty.mpr h)
  unfold rowSum rowStandardize
  simp only [Finset.sum_ite_mem, Finset.univ_inter]
  rw [Finset.sum_const, nsmul_eq_mul]
  field_simp

theorem rowStandardize_rowSum_of_empty {n : ℕ} (g : AdjacencyGraph n) (i : Fin n)
    (h : g.neighbors i = ∅) : rowSum (rowStandardize g) i = 0 := by
  unfold rowSum rowStandardize
  simp [h]

/-- A two-feature graph in which the two features are mutually adjacent. -/
def pairGraph : AdjacencyGraph 2 :=
  ⟨fun i => Finset.univ.erase i⟩

/-- A one-feature graph whose single feature is an island. -/
def isolatedGraph : AdjacencyGraph 1 :=
  ⟨fun _ => ∅⟩

/-- C2: after row-standardization, every feature with at least one neighbor
has outgoing weights summing to exactly 1 (hence within the 1e-9 tolerance
the spec allows, also in the mutually-adjacent case), while a zero-neighbor
feature is not assigned such a sum (its row sums to 0) and is flagged among
the islands. -/
theorem rowStandardized_weights_sum_to_one {n : ℕ} (g : AdjacencyGraph n)
    (i : Fin n) :
    (g.neighbors i ≠ ∅ →
      rowSum (rowStandardize g) i = 1 ∧
        |rowSum (rowStandardize g) i - 1| ≤ 1 / 10 ^ 9) ∧
      (g.neighbors i = ∅ →
        rowSum (rowStandardize g) i = 0 ∧ i ∈ g.islands) := by
  constructor
  · intro h
    refine ⟨rowStandardize_rowSum_of_mem g i h, ?_⟩
    rw [rowStandardize_rowSum_of_mem g i h]
    norm_num
  · intro h
    refine ⟨rowStandardize_rowSum_of_empty g i h, ?_⟩
    simp [AdjacencyGraph.islands, h]

/-- Witness for C2 on concrete graphs: the mutually adjacent pair, and a
single isolated feature. -/
theorem rowStandardized_weights_sum_to_one_witness :
    (rowSum (rowStandardize pairGraph) 0 = 1 ∧
        |rowSum (rowStandardize pairGraph) 0 - 1| ≤ 1 / 10 ^ 9) ∧
      (rowSum (rowStandardize isolatedGraph) 0 = 0 ∧
        (0 : Fin 1) ∈ isolatedGraph.islands) :=
  ⟨(rowStandardized_weights_sum_to_one pairGraph 0).1 (by decide),
    (rowStandardized_weights_sum_to_one isolatedGraph 0).2 rfl⟩

/-- C9: the adjacency graph built under the Queen contiguity rule is
symmetric: `j` is a neighbor of `i` exactly when `i` is a neighbor of `j`. -/
theorem queen_adjacency_symmetric {n : ℕ} (polys : Fin n → Finset (ℚ × ℚ))
    (i j : Fin n) :
    j ∈ (queenGraph polys).neighbors i ↔ i ∈ (queenGraph polys).neighbors j := by
  simp only [queenGraph, queenNeighbors, Finset.mem_filter, Finset.mem_univ,
    true_and]
  rw [Finset.inter_comm]
  exact and_congr ne_comm Iff.rfl

/-- C5: when all attribute values are identical, the global autocorrelation
statistic is 0. -/
theorem moran_constant_attribute_zero {n : ℕ} (x : Fin n → ℚ)
    (wts : SpatialWeights n) (h : ∀ i j, x i = x j) : moranI x wts = 0 := by
  rcases Nat.eq_zero_or_pos n with hn | hn
  · subst hn
    unfold moranI
    norm_num
  · have hdev : ∀ i, dev x i = 0 := by
      intro i
      have hmean : mean x = x i := by
        unfold mean
        have : ∀ j ∈ Finset.univ, x j = x i := fun j _ => h j i
        rw [Finset.sum_congr rfl this, Finset.sum_const, Finset.card_univ,
          Fintype.card_fin, nsmul_eq_mul]
        have hn0 : (n : ℚ) ≠ 0 := Nat.cast_ne_zero.mpr hn.ne'
        field_simp
      unfold dev
      rw [hmean, sub_self]
    unfold moranI
    have : ∀ i ∈ Finset.univ, dev x i * lagDev wts x i = 0 := by
      intro i _
      rw [hdev i, zero_mul]
    rw [Finset.sum_congr rfl this, Finset.sum_const, smul_zero, zero_div,
      mul_zero]

/-- Witness for C5: a constant attribute vector on the mutually adjacent
pair yields statistic 0. -/
theorem moran_constant_attribute_zero_witness :
    moranI (fun _ : Fin 2 => 3) (rowStandardize pairGraph) = 0 :=
  moran_constant_attribute_zero (fun _ => 3) (rowStandardize pairGraph)
    (fun _ _ => rfl)

/-- C10: the global statistic value is a deterministic function of the
attribute vector and the spatial weights: equal inputs give equal statistic
values, whatever permutation trials the randomized significance estimate
happens to draw. -/
theorem moran_statistic_deterministic {n : ℕ} (x y : Fin n → ℚ)
    (w1 w2 : SpatialWeights n) (p1 p2 : List (Fin n → Fin n))
    (hx : x = y) (hw : w1 = w2) :
    (moranRun x w1 p1).I = (moranRun y w2 p2).I := by
  subst hx
  subst hw
  rfl

/-- Witness for C10: two runs on the same inputs but different permutation
trials report the same statistic value. -/
theorem moran_statistic_deterministic_witness :
    (moranRun (fun _ : Fin 2 => 3) (rowStandardize pairGraph) []).I =
      (moranRun (fun _ : Fin 2 => 3) (rowStandardize pairGraph) [id]).I :=
  moran_statistic_deterministic _ _ _ _ _ _ rfl rfl

/-- C1: on a feature set with at least one island, the global engine does
not return a silently divided-by-zero number: it fails fast with a
non-empty diagnostic list naming every offending (zero-neighbor) index. -/
theorem moran_engine_island_failfast {n : ℕ} (x : Fin n → ℚ)
    (g : AdjacencyGraph n) (h : ∃ i, g.neighbors i = ∅) :
    ∃ l : List ℕ, moranEngine x g = Except.error l ∧ l ≠ [] ∧
      ∀ i : Fin n, g.neighbors i = ∅ → i.val ∈ l := by
  obtain ⟨i0, hi0⟩ := h
  have hmem : ∀ i : Fin n, g.neighbors i = ∅ → i ∈ g.islands := by
    intro i hi
    simp [AdjacencyGraph.islands, hi]
  have hne : g.islands ≠ ∅ :=
    Finset.ne_empty_of_mem (hmem i0 hi0)
  refine ⟨(g.islands.sort (· ≤ ·)).map Fin.val, ?_, ?_, ?_⟩
  · unfold moranEngine
    rw [if_neg hne]
  · intro hcontra
    have : i0 ∈ g.islands.sort (· ≤ ·) :=
      (Finset.mem_sort (α := Fin n) (· ≤ ·)).mpr (hmem i0 hi0)
    rcases List.eq_nil_of_map_eq_nil hcontra ▸ this with ⟨⟩
  · intro i hi
    exact List.mem_map_of_mem Fin.val
      ((Finset.mem_sort (α := Fin n) (· ≤ ·)).mpr (hmem i hi))

/-- Witness for C1: the single-island graph makes the engine fail fast. -/
theorem moran_engine_island_failfast_witness :
    ∃ l : List ℕ, moranEngine (fun _ : Fin 1 => 0) isolatedGraph =
        Except.error l ∧ l ≠ [] ∧
      ∀ i : Fin 1, isolatedGraph.neighbors i = ∅ → i.val ∈ l :=
  moran_engine_island_failfast (fun _ => 0) isolatedGraph ⟨0, rfl⟩

theorem rowStandardize_graph {n : ℕ} (g : AdjacencyGraph n) :
    (rowStandardize g).graph = g := rfl

theorem totalWeight_rowStandardize {n : ℕ} (g : AdjacencyGraph n)
    (h : ∀ i, g.neighbors i ≠ ∅) : totalWeight (rowStandardize g) = n := by
  unfold totalWeight
  rw [Finset.sum_congr rfl (fun i _ => rowStandardize_rowSum_of_mem g i (h i))]
  simp

/-- C4: on row-standardized weights (of an island-free graph, so that the
neighbor weights really are averages), the global statistic equals the
normalized weighted covariance of each feature's value with its neighbors'
average value, divided by the population variance. -/
theorem moran_matches_covariance_contract {n : ℕ} (x : Fin n → ℚ)
    (g : AdjacencyGraph n) (h : ∀ i, g.neighbors i ≠ ∅) :
    moranI x (rowStandardize g) = moranSpecForm x (rowStandardize g) := by
  rcases Nat.eq_zero_or_pos n with hn | hn
  · subst hn
    simp [moranI, moranSpecForm, popVariance]
  · have hn0 : (n : ℚ) ≠ 0 := Nat.cast_ne_zero.mpr hn.ne'
    have hS0 : totalWeight (rowStandardize g) = n :=
      totalWeight_rowStandardize g h
    unfold moranI moranSpecForm popVariance
    rw [hS0, div_self hn0, one_mul]
    rcases eq_or_ne (∑ i, (dev x i) ^ 2) 0 with hB | hB
    · rw [hB]
      simp
    · field_simp

/-- Witness for C4: the island-free mutually adjacent pair with a
non-constant attribute vector. -/
theorem moran_matches_covariance_contract_witness :
    moranI (fun i : Fin 2 => (i.val : ℚ)) (rowStandardize pairGraph) =
      moranSpecForm (fun i : Fin 2 => (i.val : ℚ)) (rowStandardize pairGraph) :=
  moran_matches_covariance_contract (fun i => (i.val : ℚ)) pairGraph (by decide)

/-- C3: the local statistic computation is a total function that, at any
zero-neighbor feature, produces the explicit undefined result `none` in its
one-entry-per-feature output. -/
theorem local_island_undefined {n : ℕ} (x : Fin n → ℚ) (g : AdjacencyGraph n)
    (perms : List (Fin n → Fin n)) (i : Fin n) (h : g.neighbors i = ∅) :
    (moranLocal x g perms).length = n ∧
      (moranLocal x g perms).get? i.val = some none := by
  constructor
  · unfold moranLocal
    rw [List.length_map, List.length_finRange]
  · unfold moranLocal
    have hlt : i.val < (List.finRange n).length := by
      rw [List.length_finRange]
      exact i.isLt
    rw [List.get?_map, List.get?_eq_get hlt, List.get_finRange,
      Option.map_some', Fin.eta]
    unfold localMoranAt
    rw [rowStandardize_graph, if_pos h]

/-- Witness for C3: the single-island graph yields the undefined entry. -/
theorem local_island_undefined_witness :
    (moranLocal (fun _ : Fin 1 => 0) isolatedGraph []).length = 1 ∧
      (moranLocal (fun _ : Fin 1 => 0) isolatedGraph []).get? 0 = some none :=
  local_island_undefined (fun _ => 0) isolatedGraph [] 0 rfl

theorem dev_add_const {n : ℕ} (x : Fin n → ℚ) (c : ℚ) (i : Fin n) :
    dev (fun j => x j + c) i = dev x i := by
  have hn0 : (n : ℚ) ≠ 0 := Nat.cast_ne_zero.mpr i.pos.ne'
  unfold dev mean
  rw [Finset.sum_add_distrib, Finset.sum_const, Finset.card_univ,
    Fintype.card_fin, nsmul_eq_mul]
  field_simp
  ring

theorem lagDev_add_const {n : ℕ} (wts : SpatialWeights n) (x : Fin n → ℚ)
    (c : ℚ) (i : Fin n) :
    lagDev wts (fun j => x j + c) i = lagDev wts x i := by
  unfold lagDev
  exact Finset.sum_congr rfl (fun j _ => by rw [dev_add_const])

/-- C6: adding the same constant to every attribute value leaves every
feature's local classification unchanged. -/
theorem local_classification_shift_invariant {n : ℕ} (x : Fin n → ℚ) (c : ℚ)
    (wts : SpatialWeights n) (perms : List (Fin n → Fin n)) (i : Fin n) :
    (localMoranAt (fun j => x j + c) wts perms i).map LocalResult.quad =
      (localMoranAt x wts perms i).map LocalResult.quad := by
  unfold localMoranAt
  by_cases h : wts.graph.neighbors i = ∅
  · rw [if_pos h, if_pos h]
  · rw [if_neg h, if_neg h]
    simp only [Option.map_some']
    congr 1
    rw [dev_add_const, lagDev_add_const]

theorem quadrantOf_eq_bothHigh_iff (z lag : ℚ) :
    quadrantOf z lag = Quadrant.bothHigh ↔ 0 < z ∧ 0 < lag := by
  by_cases h1 : 0 < z <;> by_cases h2 : 0 < lag <;> simp [quadrantOf, h1, h2]

theorem quadrantOf_eq_highNearLow_iff (z lag : ℚ) :
    quadrantOf z lag = Quadrant.highNearLow ↔ 0 < z ∧ ¬0 < lag := by
  by_cases h1 : 0 < z <;> by_cases h2 : 0 < lag <;> simp [quadrantOf, h1, h2]

theorem quadrantOf_eq_lowNearHigh_iff (z lag : ℚ) :
    quadrantOf z lag = Quadrant.lowNearHigh ↔ ¬0 < z ∧ 0 < lag := by
  by_cases h1 : 0 < z <;> by_cases h2 : 0 < lag <;> simp [quadrantOf, h1, h2]

theorem quadrantOf_eq_bothLow_iff (z lag : ℚ) :
    quadrantOf z lag = Quadrant.bothLow ↔ ¬0 < z ∧ ¬0 < lag := by
  by_cases h1 : 0 < z <;> by_cases h2 : 0 < lag <;> simp [quadrantOf, h1, h2]

/-- C7: the local computation yields one entry per feature index, and every
feature with neighbors gets exactly one of the four categories, determined
by the sign of its deviation and the sign of its neighbors' average
deviation, together with its own permutation significance estimate. -/
theorem local_output_shape {n : ℕ} (x : Fin n → ℚ) (g : AdjacencyGraph n)
    (perms : List (Fin n → Fin n)) :
    (moranLocal x g perms).length = n ∧
      ∀ i : Fin n, g.neighbors i ≠ ∅ →
        ∃ r : LocalResult,
          localMoranAt x (rowStandardize g) perms i = some r ∧
          (r.quad = Quadrant.bothHigh ↔
            0 < dev x i ∧ 0 < lagDev (rowStandardize g) x i) ∧
          (r.quad = Quadrant.highNearLow ↔
            0 < dev x i ∧ ¬0 < lagDev (rowStandardize g) x i) ∧
          (r.quad = Quadrant.lowNearHigh ↔
            ¬0 < dev x i ∧ 0 < lagDev (rowStandardize g) x i) ∧
          (r.quad = Quadrant.bothLow ↔
            ¬0 < dev x i ∧ ¬0 < lagDev (rowStandardize g) x i) ∧
          r.pSim =
            pSimOf r.value (localPermutedVals x (rowStandardize g) i perms) := by
  constructor
  · unfold moranLocal
    rw [List.length_map, List.length_finRange]
  · intro i hi
    refine ⟨{ value := localValue x (rowStandardize g) i
              quad := quadrantOf (dev x i) (lagDev (rowStandardize g) x i)
              pSim := pSimOf (localValue x (rowStandardize g) i)
                (localPermutedVals x (rowStandardize g) i perms) },
      ?_, quadrantOf_eq_bothHigh_iff _ _, quadrantOf_eq_highNearLow_iff _ _,
      quadrantOf_eq_lowNearHigh_iff _ _, quadrantOf_eq_bothLow_iff _ _, rfl⟩
    unfold localMoranAt
    rw [rowStandardize_graph, if_neg hi]

/-- Witness for C7 on the mutually adjacent pair with attribute values 0
and 1. -/
theorem local_output_shape_witness :
    (moranLocal (fun i : Fin 2 => (i.val : ℚ)) pairGraph []).length = 2 ∧
      ∃ r : LocalResult,
        localMoranAt (fun i : Fin 2 => (i.val : ℚ)) (rowStandardize pairGraph)
            [] 0 = some r ∧
        (r.quad = Quadrant.bothHigh ↔
          0 < dev (fun i : Fin 2 => (i.val : ℚ)) 0 ∧
            0 < lagDev (rowStandardize pairGraph)
              (fun i : Fin 2 => (i.val : ℚ)) 0) ∧
        (r.quad = Quadrant.highNearLow ↔
          0 < dev (fun i : Fin 2 => (i.val : ℚ)) 0 ∧
            ¬0 < lagDev (rowStandardize pairGraph)
              (fun i : Fin 2 => (i.val : ℚ)) 0) ∧
        (r.quad = Quadrant.lowNearHigh ↔
          ¬0 < dev (fun i : Fin 2 => (i.val : ℚ)) 0 ∧
            0 < lagDev (rowStandardize pairGraph)
              (fun i : Fin 2 => (i.val : ℚ)) 0) ∧
        (r.quad = Quadrant.bothLow ↔
          ¬0 < dev (fun i : Fin 2 => (i.val : ℚ)) 0 ∧
            ¬0 < lagDev (rowStandardize pairGraph)
              (fun i : Fin 2 => (i.val : ℚ)) 0) ∧
        r.pSim = pSimOf r.value
          (localPermutedVals (fun i : Fin 2 => (i.val : ℚ))
            (rowStandardize pairGraph) 0 []) :=
  ⟨(local_output_shape (fun i : Fin 2 => (i.val : ℚ)) pairGraph []).1,
    (local_output_shape (fun i : Fin 2 => (i.val : ℚ)) pairGraph []).2 0
      (by decide)⟩

theorem moranSimCount_eq_countGE {n : ℕ} (x : Fin n → ℚ)
    (wts : SpatialWeights n) (perms : List (Fin n → Fin n)) :
    moranSimCount x wts perms =
      countGE (moranI x wts)
        (perms.map (fun σ => moranI (fun i => x (σ i)) wts)) := by
  induction perms with
  | nil => rfl
  | cons σ rest ih =>
      simp only [moranSimCount, List.map_cons, countGE, permutedStat, ih]

theorem moranSimCount_le_length {n : ℕ} (x : Fin n → ℚ)
    (wts : SpatialWeights n) (perms : List (Fin n → Fin n)) :
    moranSimCount x wts perms ≤ perms.length := by
  induction perms with
  | nil => exact Nat.le_refl 0
  | cons σ rest ih =>
      simp only [moranSimCount, List.length_cons]
      split_ifs <;> omega

/-- C8: the significance estimate of the global statistic is a permutation
p-value: it compares the observed statistic against the distribution of
statistics recomputed on the randomized attribute-to-location assignments,
and is a genuine probability in (0, 1]. -/
theorem global_psim_by_permutation {n : ℕ} (x : Fin n → ℚ)
    (wts : SpatialWeights n) (perms : List (Fin n → Fin n)) :
    moranPSim x wts perms =
      pSimOf (moranI x wts)
        (perms.map (fun σ => moranI (fun i => x (σ i)) wts)) ∧
      0 < moranPSim x wts perms ∧ moranPSim x wts perms ≤ 1 := by
  refine ⟨?_, ?_, ?_⟩
  · unfold moranPSim pSimOf
    rw [moranSimCount_eq_countGE, List.length_map]
  · unfold moranPSim
    positivity
  · unfold moranPSim
    rw [div_le_one (by positivity)]
    have h := moranSimCount_le_length x wts perms
    have : (moranSimCount x wts perms : ℚ) ≤ (perms.length : ℚ) :=
      Nat.cast_le.mpr h
    linarith
